import Mathlib

/-!
Verification of the planar-geometry pipeline of `src/main.py`: ear-clipping
triangulation (`ear_clip`), greedy convex merging (`merge_convex`), and
boustrophedon coverage planning (`compute_lawnmower` / `generate_paths`).

The Python code computes with IEEE floats; the embedding idealises float
arithmetic as exact rational arithmetic (ℚ).  All arithmetic in the embedded
definitions is expressed through the wrapper operations `qadd`, `qsub`,
`qmul`, `qdiv`, `qabs` below, each of which is proved equal to the
corresponding field operation on ℚ (`qadd_eq`, ...).  The wrappers exist only
because the library's `Rat.add`/`Rat.mul`/... are `@[irreducible]`, which
blocks `decide`-style evaluation on concrete inputs; semantically the
embedding is plain ℚ arithmetic.
-/

set_option maxRecDepth 4000000

/-- Addition on ℚ, evaluable by `decide`.  Equal to `+` (`qadd_eq`). -/
def qadd (a b : ℚ) : ℚ := mkRat (a.num * b.den + b.num * a.den) (a.den * b.den)

/-- Negation on ℚ, evaluable by `decide`.  Equal to `-·` (`qneg_eq`). -/
def qneg (a : ℚ) : ℚ := mkRat (-a.num) a.den

/-- Subtraction on ℚ, evaluable by `decide`.  Equal to `-` (`qsub_eq`). -/
def qsub (a b : ℚ) : ℚ := mkRat (a.num * b.den - b.num * a.den) (a.den * b.den)

/-- Multiplication on ℚ, evaluable by `decide`.  Equal to `*` (`qmul_eq`). -/
def qmul (a b : ℚ) : ℚ := mkRat (a.num * b.num) (a.den * b.den)

/-- Division on ℚ, evaluable by `decide`.  Equal to `/` (`qdiv_eq`);
like ℚ division it returns 0 on a zero divisor. -/
def qdiv (a b : ℚ) : ℚ := Rat.divInt (a.num * b.den) (a.den * b.num)

/-- Absolute value on ℚ, evaluable by `decide`.  Equal to `|·|` (`qabs_eq`). -/
def qabs (a : ℚ) : ℚ := if a.num < 0 then qneg a else a

/-- A 2-D point; models `QPointF` (float coordinates idealised as ℚ). -/
structure Point where
  x : ℚ
  y : ℚ
deriving DecidableEq

instance : Inhabited Point := ⟨⟨0, 0⟩⟩

/-- The fixed tolerance `1e-6` used by `ear_clip.point_in_tri`,
`unique_points` and `merge_convex` (source `EPSILON = 1e-6`). -/
def EPSILON : ℚ := mkRat 1 1000000

/-- Twice the signed area of triangle ABC; source `_area2` (line 14). -/
def area2 (a b c : Point) : ℚ :=
  qsub (qmul (qsub b.x a.x) (qsub c.y a.y)) (qmul (qsub b.y a.y) (qsub c.x a.x))

/-- Tolerance-based point comparison used throughout `merge_convex` and
`unique_points`: both coordinates differ by less than `EPSILON`
(source lines 81, 117, 130-133). -/
def epsClose (p q : Point) : Bool :=
  decide (qabs (qsub p.x q.x) < EPSILON) && decide (qabs (qsub p.y q.y) < EPSILON)

/-- Qt's fuzzy comparison of one float coordinate, from Qt's
`qFuzzyCompare` / `qFuzzyIsNull` as used by `QPointF::operator==`:
when either operand is zero, `|a - b| <= 1e-12`; otherwise
`|a - b| * 1e12 <= min |a| |b|`.  This is the equality the Python
operators `in` / `not in` / `list.remove` invoke on `QPointF` values. -/
def qpfCoordEq (a b : ℚ) : Bool :=
  if a = 0 ∨ b = 0 then decide (qabs (qsub a b) ≤ mkRat 1 1000000000000)
  else decide (qmul (qabs (qsub a b)) 1000000000000 ≤ min (qabs a) (qabs b))

/-- Full `QPointF` equality (`p == q` in Python): Qt fuzzy comparison on both
coordinates.  Reference-identical points always satisfy it. -/
def qpfEq (p q : Point) : Bool := qpfCoordEq p.x q.x && qpfCoordEq p.y q.y

/-!
## Triangulator: `ear_clip` (source lines 19-73)
-/

/-- The shoelace sum `sum(pts[i].x * pts[i+1].y - pts[i+1].x * pts[i].y)`
used by `ear_clip` to normalise the winding to CCW (source lines 26-28). -/
def shoelaceSum (pts : List Point) : ℚ :=
  ((List.range pts.length).map (fun i =>
    let p := pts.getD i default
    let q := pts.getD ((i + 1) % pts.length) default
    qsub (qmul p.x q.y) (qmul q.x p.y))).foldl qadd 0

/-- Barycentric area-sum containment test `point_in_tri` (source lines 35-41):
`abs((A1 + A2 + A3) - A) < 1e-6` with each area taken as absolute value. -/
def pointInTri (p a b c : Point) : Bool :=
  decide (qabs (qsub
    (qadd (qadd (qabs (area2 p b c)) (qabs (area2 a p c))) (qabs (area2 a b p)))
    (qabs (area2 a b c))) < EPSILON)

/-- The membership test `p in (prev, curr, nxt)` used by the containment
check of `ear_clip` (source line 58).  Python `in` compares `QPointF`
values with `==`, i.e. Qt fuzzy equality, not the `1e-6` tolerance. -/
def earVertexMember (p a b c : Point) : Bool := qpfEq p a || qpfEq p b || qpfEq p c

/-- Whether index `i` of the working list `V` is an ear (source lines 50-62):
the angle at `V[i]` is strictly convex, and no other vertex of `V` lies in
the candidate triangle. -/
def isEarAt (V : List Point) (i : Nat) : Bool :=
  let n := V.length
  let prev := V.getD ((i + n - 1) % n) default
  let curr := V.getD i default
  let nxt := V.getD ((i + 1) % n) default
  decide (0 < area2 prev curr nxt) &&
    V.all (fun p => earVertexMember p prev curr nxt || !pointInTri p prev curr nxt)

/-- First ear index in scan order (first match wins, source lines 50-65). -/
def findEarIdx (V : List Point) : Option Nat :=
  (List.range V.length).find? (fun i => isEarAt V i)

/-- Python's `V.remove(curr)` (source line 64): removes the first element
comparing equal (`QPointF ==`, i.e. `qpfEq`) to `curr`. -/
def removeFirst : List Point → Point → List Point
  | [], _ => []
  | p :: ps, c => if qpfEq p c then ps else p :: removeFirst ps c

/-- The `while len(V) > 3 and iterations < max_iterations` loop of `ear_clip`
(source lines 48-71), with the iteration budget as explicit fuel.  Each
iteration clips the first ear found and restarts the scan; if no ear is
found the loop stops early.  After the loop, a final triangle is emitted
iff exactly 3 vertices remain (source lines 70-71). -/
def earClipLoop : Nat → List Point → List (Point × Point × Point)
  | 0, V =>
    if V.length = 3 then [(V.getD 0 default, V.getD 1 default, V.getD 2 default)] else []
  | fuel + 1, V =>
    if 3 < V.length then
      match findEarIdx V with
      | some i =>
        let n := V.length
        let prev := V.getD ((i + n - 1) % n) default
        let curr := V.getD i default
        let nxt := V.getD ((i + 1) % n) default
        (prev, curr, nxt) :: earClipLoop fuel (removeFirst V curr)
      | none => []
    else
      if V.length = 3 then [(V.getD 0 default, V.getD 1 default, V.getD 2 default)] else []

/-- Ear-clipping triangulation `ear_clip` (source lines 19-73): fewer than 3
vertices yield `[]`; otherwise the winding is normalised to CCW via the
shoelace sum and the clipping loop runs with iteration cap `2 * n`. -/
def ear_clip (vertices : List Point) : List (Point × Point × Point) :=
  if vertices.length < 3 then []
  else
    let pts := if shoelaceSum vertices < 0 then vertices.reverse else vertices
    earClipLoop (2 * vertices.length) pts

/-!
## ConvexMerger: `merge_convex` (source lines 76-171)
-/

/-- Accumulator loop of `unique_points` (source lines 76-83): keep a point iff
no already-kept point is `epsClose` to it. -/
def uniqAux : List Point → List Point → List Point
  | uniq, [] => uniq
  | uniq, p :: ps =>
    if uniq.any (fun q => epsClose p q) then uniqAux uniq ps else uniqAux (uniq ++ [p]) ps

/-- Duplicate removal under the `1e-6` tolerance (source lines 76-83). -/
def unique_points (pts : List Point) : List Point := uniqAux [] pts

/-- Shared-vertex collection of `merge_convex` (source lines 113-119): every
`p ∈ P` that is `epsClose` to some `q ∈ Q` is appended, unless the `shared`
list already holds a point equal to `p` under `QPointF ==` (the
`if p not in shared` guard uses Qt fuzzy equality, not the tolerance). -/
def sharedVertices (P Q : List Point) : List Point :=
  P.foldl (fun shared p =>
    if Q.any (fun q => epsClose p q) && !(shared.any (fun s => qpfEq p s)) then shared ++ [p]
    else shared) []

/-- The test `is_edge(points, a, b)` of `merge_convex` (source lines 125-135): some
boundary edge of the cycle matches `{a, b}` under the tolerance. -/
def isEdgeOf (pts : List Point) (a b : Point) : Bool :=
  (List.range pts.length).any (fun i =>
    let p1 := pts.getD i default
    let p2 := pts.getD ((i + 1) % pts.length) default
    (epsClose p1 a && epsClose p2 b) || (epsClose p1 b && epsClose p2 a))

/-- Classifies the direction from `c` to `p` into the four bands of
`math.atan2(dy, dx)`: `0` for `dy < 0` (angles in `(-pi, 0)`), `1` for
`dy = 0 ∧ dx ≥ 0` (angle `0`), `2` for `dy > 0` (angles in `(0, pi)`),
`3` for `dy = 0 ∧ dx < 0` (angle `pi`). -/
def angClass (c p : Point) : Nat :=
  let dx := qsub p.x c.x
  let dy := qsub p.y c.y
  if dy < 0 then 0
  else if dy = 0 ∧ 0 ≤ dx then 1
  else if 0 < dy then 2
  else 3

/-- Exact model of the sort key comparison
`atan2(p.y - c.y, p.x - c.x) < atan2(q.y - c.y, q.x - c.x)` used by
`merge_convex` (source line 148): compare the atan2 bands first; inside an
open half-plane band the angle order is the sign of the cross product
(`area2 c p q`); within bands 1 and 3 the angles are equal. -/
def angLt (c p q : Point) : Bool :=
  let cp := angClass c p
  let cq := angClass c q
  if cp < cq then true
  else if cq < cp then false
  else if cp = 0 ∨ cp = 2 then decide (0 < area2 c p q) else false

/-- Stable insertion for the angle sort: `p` is placed after exactly the
existing elements whose key is strictly smaller, so equal keys keep their
original relative order, as in Python's stable `list.sort`. -/
def insertByAngle (c p : Point) : List Point → List Point
  | [] => [p]
  | q :: qs => if angLt c q p then q :: insertByAngle c p qs else p :: q :: qs

/-- Stable sort of points by angle around `c` (source line 148).  A stable
sort under a total preorder is unique, so this insertion sort returns the
same list as Python's Timsort with the `atan2` key. -/
def sortByAngle (c : Point) : List Point → List Point
  | [] => []
  | p :: ps => insertByAngle c p (sortByAngle c ps)

/-- Centroid of a vertex list (source lines 144-145).  `qdiv` returns 0 on
an empty list where Python would raise `ZeroDivisionError`; `merge_convex`
only calls it on lists holding at least the two shared vertices. -/
def centroidOf (pts : List Point) : Point :=
  ⟨qdiv ((pts.map (fun p => p.x)).foldl qadd 0) (pts.length : ℚ),
   qdiv ((pts.map (fun p => p.y)).foldl qadd 0) (pts.length : ℚ)⟩

/-- The convexity test of `merge_convex` (source lines 150-157) and the
convexity invariant of the spec: every consecutive vertex triple, taken
cyclically, has strictly positive signed area. -/
def isConvexCCW (pts : List Point) : Bool :=
  let m := pts.length
  (List.range m).all (fun k =>
    let a := pts.getD ((k + m - 1) % m) default
    let b := pts.getD k default
    let c := pts.getD ((k + 1) % m) default
    decide (0 < area2 a b c))

/-- The candidate merged polygon (source lines 140-148): deduplicated union
of the vertex lists, sorted by angle around its centroid. -/
def mergedCandidate (P Q : List Point) : List Point :=
  let allPts := unique_points (P ++ Q)
  sortByAngle (centroidOf allPts) allPts

/-- One merge attempt on an ordered pair (source lines 110-160): requires
exactly two shared vertices forming an edge of both polygons, and a convex
sorted union; returns the merged polygon on success. -/
def tryMerge (P Q : List Point) : Option (List Point) :=
  match sharedVertices P Q with
  | [a, b] =>
    if isEdgeOf P a b && isEdgeOf Q a b then
      if isConvexCCW (mergedCandidate P Q) then some (mergedCandidate P Q) else none
    else none
  | _ => none

/-- Scans `rest` in order for the first polygon mergeable with `P`; returns
the merged polygon and `rest` without the used partner (models the inner
`for j in range(i+1, n)` loop, source lines 109-169). -/
def tryMergeWithAny (P : List Point) : List (List Point) → Option (List Point × List (List Point))
  | [] => none
  | Q :: qs =>
    match tryMerge P Q with
    | some M => some (M, qs)
    | none =>
      match tryMergeWithAny P qs with
      | some (M, qs') => some (M, Q :: qs')
      | none => none

/-- One pass of `merge_convex` (source lines 105-169): the first pair
`(i, j)` with `i < j` in scan order that merges is replaced — both polygons
are removed and the merged polygon is appended at the end of the list
(`pop(j); pop(i); append(new_poly)`, source lines 162-167).  `none` means a
full pass found no mergeable pair. -/
def tryMergePass : List (List Point) → Option (List (List Point))
  | [] => none
  | P :: rest =>
    match tryMergeWithAny P rest with
    | some (M, rest') => some (rest' ++ [M])
    | none =>
      match tryMergePass rest with
      | some rest2 => some (P :: rest2)
      | none => none

/-- The `while merged and iteration < max_iterations` loop (source lines
96-169) with the pass budget as fuel: each successful pass performs exactly
one merge and restarts; the loop stops at a pass with no merge or when the
budget is exhausted. -/
def mergeLoop : Nat → List (List Point) → List (List Point)
  | 0, ps => ps
  | fuel + 1, ps =>
    match tryMergePass ps with
    | none => ps
    | some ps' => mergeLoop fuel ps'

/-- Greedy convex merging `merge_convex` (source lines 86-171), with the
source's pass cap `max_iterations = 100`. -/
def merge_convex (polygons : List (List Point)) : List (List Point) :=
  if polygons = [] then [] else mergeLoop 100 polygons

/-!
## CoveragePlanner: `compute_lawnmower` (source lines 411-450) and the
path-stitching loop of `generate_paths` (source lines 358-383)
-/

/-- A path segment, modelling a `QLineF` with endpoints `p1`, `p2`. -/
structure Seg where
  p1 : Point
  p2 : Point
deriving DecidableEq

/-- Python's `min(p.y() for p in poly)` (source lines 417-418); 0 on the empty list,
where Python's `min` would raise `ValueError`. -/
def yMinOf : List Point → ℚ
  | [] => 0
  | p :: ps => ps.foldl (fun m v => min m v.y) p.y

/-- Python's `max(p.y() for p in poly)` (source lines 417-418); 0 on the empty list. -/
def yMaxOf : List Point → ℚ
  | [] => 0
  | p :: ps => ps.foldl (fun m v => max m v.y) p.y

/-- The half-open crossing test of `compute_lawnmower` (source line 432):
`(a.y <= y < b.y) or (b.y <= y < a.y)`. -/
def crossesAt (a b : Point) (y : ℚ) : Bool :=
  decide (a.y ≤ y ∧ y < b.y) || decide (b.y ≤ y ∧ y < a.y)

/-- Crossing x-coordinates of the scan line at height `y` with each polygon
edge, in edge order (source lines 430-435): linear interpolation
`x = a.x + (y - a.y) / (b.y - a.y) * (b.x - a.x)` for each crossing edge. -/
def crossingXs (poly : List Point) (y : ℚ) : List ℚ :=
  (List.range poly.length).filterMap (fun i =>
    let a := poly.getD i default
    let b := poly.getD ((i + 1) % poly.length) default
    if crossesAt a b y then
      some (qadd a.x (qmul (qdiv (qsub y a.y) (qsub b.y a.y)) (qsub b.x a.x)))
    else none)

/-- Ascending insertion for the numeric sort `xs.sort()` (source line 438). -/
def insertQ (v : ℚ) : List ℚ → List ℚ
  | [] => [v]
  | z :: zs => if z < v then z :: insertQ v zs else v :: z :: zs

/-- Ascending sort of the crossing x-values (source line 438). -/
def sortQ : List ℚ → List ℚ
  | [] => []
  | v :: vs => insertQ v (sortQ vs)

/-- The stride-2 pairing loop (source lines 440-446): consecutive sorted
crossings are paired as inside-intervals, each inset by `inset` on both
ends, and a stripe at height `y` is emitted only if `x0 + inset < x1 - inset`. -/
def pairStripes (xs : List ℚ) (y inset : ℚ) : List Seg :=
  match xs with
  | x0 :: x1 :: rest =>
    (if qadd x0 inset < qsub x1 inset
     then [⟨⟨qadd x0 inset, y⟩, ⟨qsub x1 inset, y⟩⟩] else []) ++ pairStripes rest y inset
  | _ => []

/-- Scan heights of the loop `y = y_min + spacing; while y <= y_max -
spacing: ...; y += spacing` (source lines 424-448), with explicit fuel for
the iteration count.  For `spacing > 0` and sufficient fuel this is exactly
the sequence of `y` values the Python loop visits (the loop does not
terminate for `spacing <= 0`; the UI restricts spacing to `[1, 1000]`). -/
def scanLoop : Nat → ℚ → ℚ → ℚ → List ℚ
  | 0, _, _, _ => []
  | fuel + 1, y, yTop, spacing =>
    if y ≤ yTop then y :: scanLoop fuel (qadd y spacing) yTop spacing else []

/-- Fuel bound for `scanLoop`: `|num/den| + 2` of `(yMax - yMin) / spacing`,
an upper bound for the iteration count whenever `spacing > 0`. -/
def scanFuel (yMin yMax spacing : ℚ) : Nat :=
  (qdiv (qsub yMax yMin) spacing).num.natAbs / (qdiv (qsub yMax yMin) spacing).den + 2

/-- Coverage stripes `compute_lawnmower(poly, spacing)` (source lines
411-450): horizontal stripes at each scan height, inset by `spacing` at
both ends, in bottom-to-top scan order. -/
def compute_lawnmower (poly : List Point) (spacing : ℚ) : List Seg :=
  let yMin := yMinOf poly
  let yMax := yMaxOf poly
  (scanLoop (scanFuel yMin yMax spacing) (qadd yMin spacing) (qsub yMax spacing) spacing).flatMap
    (fun y => pairStripes (sortQ (crossingXs poly y)) y spacing)

/-- Stable insertion for `stripes.sort(key=lambda line: line.y1())`
(source line 361). -/
def insertByY1 (s : Seg) : List Seg → List Seg
  | [] => [s]
  | t :: ts => if t.p1.y < s.p1.y then t :: insertByY1 s ts else s :: t :: ts

/-- Stable sort of stripes by `p1.y` (source line 361). -/
def sortByY1 : List Seg → List Seg
  | [] => []
  | s :: rest => insertByY1 s (sortByY1 rest)

/-- The stitching loop of `generate_paths` (source lines 363-383): stripes
are walked in order, odd-indexed stripes are reversed, and a transition
segment from the previous endpoint is emitted before each stripe after the
first. -/
def pathFrom : Option Point → Nat → List Seg → List Seg
  | _, _, [] => []
  | prev, idx, seg :: rest =>
    let s := if idx % 2 = 1 then seg.p2 else seg.p1
    let e := if idx % 2 = 1 then seg.p1 else seg.p2
    (match prev with
     | none => []
     | some q => [⟨q, s⟩]) ++ ⟨s, e⟩ :: pathFrom (some e) (idx + 1) rest

/-- Full per-piece coverage path of `generate_paths`: sorted stripes,
alternating direction, connected by transition segments. -/
def buildPath (stripes : List Seg) : List Seg := pathFrom none 0 (sortByY1 stripes)

/-!
## Concrete inputs used by counterexamples and witnesses
-/

/-- Lower-left triangle of the unit square at horizontal offset `3*i`. -/
def triA (i : Nat) : List Point :=
  [⟨((3 * i : Nat) : ℚ), 0⟩, ⟨((3 * i + 1 : Nat) : ℚ), 0⟩, ⟨((3 * i + 1 : Nat) : ℚ), 1⟩]

/-- Upper-right triangle of the unit square at horizontal offset `3*i`. -/
def triB (i : Nat) : List Point :=
  [⟨((3 * i : Nat) : ℚ), 0⟩, ⟨((3 * i + 1 : Nat) : ℚ), 1⟩, ⟨((3 * i : Nat) : ℚ), 1⟩]

/-- A family of `k` mutually disjoint unit squares, each split into two triangles that
share the diagonal edge: `[triA 0, triB 0, triA 1, triB 1, ...]`.  Each of
the `k` pairs merges into a square in one pass of `merge_convex`. -/
def manyTris (k : Nat) : List (List Point) :=
  (List.range k).flatMap (fun i => [triA i, triB i])

/-- The merged square at horizontal offset `3*i`, as produced by
`tryMerge (triA i) (triB i)` (vertices in the CCW order the angle sort
yields). -/
def square (i : Nat) : List Point :=
  [⟨((3 * i : Nat) : ℚ), 0⟩, ⟨((3 * i + 1 : Nat) : ℚ), 0⟩,
   ⟨((3 * i + 1 : Nat) : ℚ), 1⟩, ⟨((3 * i : Nat) : ℚ), 1⟩]

/-- The state of `merge_convex (manyTris 101)` when the 100-pass cap stops
the loop: pass `k` merges the pair `(triA (k-1), triB (k-1))` standing at
the front of the list and appends the merged square, so after the 100
permitted passes the pair of the last square is still unmerged. -/
def afterCap : List (List Point) :=
  [triA 100, triB 100] ++ (List.range 100).map square

/-!
## Bridging lemmas and basic evaluations
-/

theorem qadd_eq (a b : ℚ) : qadd a b = a + b := by
  unfold qadd
  rw [Rat.mkRat_eq_div]
  have ha : ((a.den : ℚ)) ≠ 0 := Nat.cast_ne_zero.mpr a.den_nz
  have hb : ((b.den : ℚ)) ≠ 0 := Nat.cast_ne_zero.mpr b.den_nz
  conv_rhs => rw [← Rat.num_div_den a, ← Rat.num_div_den b]
  push_cast
  field_simp

theorem qneg_eq (a : ℚ) : qneg a = -a := by
  unfold qneg
  rw [Rat.mkRat_eq_div]
  push_cast
  rw [neg_div, Rat.num_div_den]

theorem qsub_eq (a b : ℚ) : qsub a b = a - b := by
  unfold qsub
  rw [Rat.mkRat_eq_div]
  have ha : ((a.den : ℚ)) ≠ 0 := Nat.cast_ne_zero.mpr a.den_nz
  have hb : ((b.den : ℚ)) ≠ 0 := Nat.cast_ne_zero.mpr b.den_nz
  conv_rhs => rw [← Rat.num_div_den a, ← Rat.num_div_den b]
  push_cast
  field_simp
  ring

theorem qmul_eq (a b : ℚ) : qmul a b = a * b := by
  unfold qmul
  rw [Rat.mkRat_eq_div]
  have ha : ((a.den : ℚ)) ≠ 0 := Nat.cast_ne_zero.mpr a.den_nz
  have hb : ((b.den : ℚ)) ≠ 0 := Nat.cast_ne_zero.mpr b.den_nz
  conv_rhs => rw [← Rat.num_div_den a, ← Rat.num_div_den b]
  push_cast
  field_simp

theorem qdiv_eq (a b : ℚ) : qdiv a b = a / b := by
  unfold qdiv
  rw [Rat.divInt_eq_div]
  by_cases hb : b = 0
  · subst hb
    simp
  · have ha : ((a.den : ℚ)) ≠ 0 := Nat.cast_ne_zero.mpr a.den_nz
    have hbd : ((b.den : ℚ)) ≠ 0 := Nat.cast_ne_zero.mpr b.den_nz
    have hbn : ((b.num : ℚ)) ≠ 0 := Int.cast_ne_zero.mpr (Rat.num_ne_zero.mpr hb)
    conv_rhs => rw [← Rat.num_div_den a, ← Rat.num_div_den b]
    push_cast
    rw [div_div_div_eq]

theorem qabs_eq (a : ℚ) : qabs a = |a| := by
  unfold qabs
  split
  · next h =>
    have ha : a < 0 := not_le.mp (fun hle => absurd (Rat.num_nonneg.mpr hle) (by omega))
    rw [qneg_eq, abs_of_neg ha]
  · next h =>
    rw [abs_of_nonneg (Rat.num_nonneg.mp (by omega))]

theorem EPSILON_eq : EPSILON = 1 / 1000000 := by
  unfold EPSILON
  rw [Rat.mkRat_eq_div]
  norm_num

example : epsClose ⟨mkRat 1 10000000, 0⟩ ⟨0, 0⟩ = true := by decide
example : qpfEq ⟨mkRat 1 10000000, 0⟩ ⟨0, 0⟩ = false := by decide
example : qpfEq ⟨3, 4⟩ ⟨3, 4⟩ = true := by decide

example : ear_clip [⟨0,0⟩, ⟨10,0⟩, ⟨10,10⟩, ⟨0,10⟩] =
    [(⟨0,10⟩, ⟨0,0⟩, ⟨10,0⟩), (⟨10,0⟩, ⟨10,10⟩, ⟨0,10⟩)] := by decide
example : ear_clip [⟨0,0⟩, ⟨0,10⟩, ⟨10,10⟩, ⟨10,0⟩] =
    [(⟨0,0⟩, ⟨10,0⟩, ⟨10,10⟩), (⟨10,10⟩, ⟨0,10⟩, ⟨0,0⟩)] := by decide

example : (ear_clip [⟨0,0⟩, ⟨2,0⟩, ⟨2,1⟩, ⟨1,1⟩, ⟨1,2⟩, ⟨0,2⟩]).length = 4 := by decide

example :
    ((ear_clip [⟨0,0⟩, ⟨2,0⟩, ⟨2,1⟩, ⟨1,1⟩, ⟨1,2⟩, ⟨0,2⟩]).map
      (fun t => qabs (area2 t.1 t.2.1 t.2.2))).foldl qadd 0 = 6 := by decide

example :
    ((ear_clip [⟨0,0⟩, ⟨10,0⟩, ⟨10,10⟩, ⟨0,10⟩]).map
      (fun t => qabs (area2 t.1 t.2.1 t.2.2))).foldl qadd 0 = 200 := by decide

example : tryMerge [⟨0,0⟩, ⟨1,0⟩, ⟨1,1⟩] [⟨0,0⟩, ⟨1,1⟩, ⟨0,1⟩] =
    some [⟨0,0⟩, ⟨1,0⟩, ⟨1,1⟩, ⟨0,1⟩] := by decide
example : merge_convex [[⟨0,0⟩, ⟨10,0⟩, ⟨10,10⟩], [⟨0,0⟩, ⟨10,10⟩, ⟨0,10⟩]] =
    [[⟨0,0⟩, ⟨10,0⟩, ⟨10,10⟩, ⟨0,10⟩]] := by decide

example : compute_lawnmower [⟨0,0⟩, ⟨10,0⟩, ⟨10,10⟩, ⟨0,10⟩] 2 =
    [⟨⟨2,2⟩,⟨8,2⟩⟩, ⟨⟨2,4⟩,⟨8,4⟩⟩, ⟨⟨2,6⟩,⟨8,6⟩⟩, ⟨⟨2,8⟩,⟨8,8⟩⟩] := by decide

example : (merge_convex (manyTris 2)).length = 2 := by decide

/-!
## Helper lemmas
-/

theorem tryMerge_isConvex {P Q M : List Point} (h : tryMerge P Q = some M) :
    isConvexCCW M = true := by
  unfold tryMerge at h
  split at h
  · split at h
    · split at h
      · next hconv =>
        cases h
        exact hconv
      · exact Option.noConfusion h
    · exact Option.noConfusion h
  · exact Option.noConfusion h

theorem tryMergeWithAny_spec {P : List Point} :
    ∀ {rest : List (List Point)} {M : List Point} {rest' : List (List Point)},
      tryMergeWithAny P rest = some (M, rest') →
      isConvexCCW M = true ∧ rest'.length + 1 = rest.length ∧ ∀ x ∈ rest', x ∈ rest := by
  intro rest
  induction rest with
  | nil => intro M rest' h; exact Option.noConfusion h
  | cons Q qs ih =>
    intro M rest' h
    unfold tryMergeWithAny at h
    cases hTM : tryMerge P Q with
    | some M0 =>
      rw [hTM] at h
      cases h
      refine ⟨tryMerge_isConvex hTM, rfl, ?_⟩
      intro x hx
      exact List.mem_cons_of_mem _ hx
    | none =>
      rw [hTM] at h
      cases hRec : tryMergeWithAny P qs with
      | some pr =>
        obtain ⟨M1, qs1⟩ := pr
        rw [hRec] at h
        cases h
        obtain ⟨hc, hl, hm⟩ := ih hRec
        refine ⟨hc, by simpa using hl, ?_⟩
        intro x hx
        rcases List.mem_cons.mp hx with hx | hx
        · exact hx ▸ List.mem_cons_self _ _
        · exact List.mem_cons_of_mem _ (hm x hx)
      | none =>
        rw [hRec] at h
        exact Option.noConfusion h

theorem tryMergePass_spec :
    ∀ {ps ps' : List (List Point)}, tryMergePass ps = some ps' →
      ps'.length + 1 = ps.length ∧ ∀ x ∈ ps', x ∈ ps ∨ isConvexCCW x = true := by
  intro ps
  induction ps with
  | nil => intro ps' h; exact Option.noConfusion h
  | cons P rest ih =>
    intro ps' h
    unfold tryMergePass at h
    cases hAny : tryMergeWithAny P rest with
    | some pr =>
      obtain ⟨M, rest'⟩ := pr
      rw [hAny] at h
      cases h
      obtain ⟨hc, hl, hm⟩ := tryMergeWithAny_spec hAny
      constructor
      · simp only [List.length_append, List.length_cons, List.length_nil]
        omega
      · intro x hx
        rcases List.mem_append.mp hx with hx | hx
        · exact Or.inl (List.mem_cons_of_mem _ (hm x hx))
        · rcases List.mem_singleton.mp hx with rfl
          exact Or.inr hc
    | none =>
      rw [hAny] at h
      cases hRec : tryMergePass rest with
      | some rest2 =>
        rw [hRec] at h
        cases h
        obtain ⟨hl, hm⟩ := ih hRec
        constructor
        · simp only [List.length_cons]
          omega
        · intro x hx
          rcases List.mem_cons.mp hx with hx | hx
          · exact Or.inl (hx ▸ List.mem_cons_self _ _)
          · rcases hm x hx with h1 | h1
            · exact Or.inl (List.mem_cons_of_mem _ h1)
            · exact Or.inr h1
      | none =>
        rw [hRec] at h
        exact Option.noConfusion h

theorem mergeLoop_length_le :
    ∀ (fuel : Nat) (ps : List (List Point)), (mergeLoop fuel ps).length ≤ ps.length := by
  intro fuel
  induction fuel with
  | zero => intro ps; exact Nat.le_refl _
  | succ n ih =>
    intro ps
    unfold mergeLoop
    cases hPass : tryMergePass ps with
    | none => exact Nat.le_refl _
    | some ps' =>
      obtain ⟨hl, _⟩ := tryMergePass_spec hPass
      exact Nat.le_trans (ih ps') (by omega)

theorem mergeLoop_all_convex :
    ∀ (fuel : Nat) (ps : List (List Point)), (∀ x ∈ ps, isConvexCCW x = true) →
      ∀ x ∈ mergeLoop fuel ps, isConvexCCW x = true := by
  intro fuel
  induction fuel with
  | zero => intro ps h; exact h
  | succ n ih =>
    intro ps h
    unfold mergeLoop
    cases hPass : tryMergePass ps with
    | none => exact h
    | some ps' =>
      apply ih
      intro x hx
      rcases (tryMergePass_spec hPass).2 x hx with h1 | h1
      · exact h x h1
      · exact h1

theorem mergeLoop_of_pass_none {fuel : Nat} {ps : List (List Point)}
    (h : tryMergePass ps = none) : mergeLoop fuel ps = ps := by
  cases fuel with
  | zero => rfl
  | succ n =>
    unfold mergeLoop
    rw [h]

/-- Shared fixed-point fact: when a full pass over `ps` finds no mergeable
pair, `merge_convex` returns its input unchanged. -/
theorem merge_convex_fixed {ps : List (List Point)} (h : tryMergePass ps = none) :
    merge_convex ps = ps := by
  unfold merge_convex
  split
  · next he => exact he.symm
  · exact mergeLoop_of_pass_none h

theorem epsClose_refl (p : Point) : epsClose p p = true := by
  simp only [epsClose, qsub_eq, sub_self, qabs_eq, abs_zero, EPSILON_eq,
    Bool.and_eq_true, decide_eq_true_eq]
  norm_num

theorem uniqAux_acc_mem :
    ∀ (ps acc : List Point) (q : Point), q ∈ acc → q ∈ uniqAux acc ps := by
  intro ps
  induction ps with
  | nil => intro acc q hq; exact hq
  | cons p ps ih =>
    intro acc q hq
    unfold uniqAux
    split
    · exact ih acc q hq
    · exact ih (acc ++ [p]) q (List.mem_append_left _ hq)

theorem uniqAux_represented :
    ∀ (ps acc : List Point) (p : Point), p ∈ ps →
      ∃ q ∈ uniqAux acc ps, epsClose p q = true := by
  intro ps
  induction ps with
  | nil => intro acc p hp; exact absurd hp (List.not_mem_nil p)
  | cons hd tl ih =>
    intro acc p hp
    rcases List.mem_cons.mp hp with rfl | hp
    · unfold uniqAux
      split
      · next hAny =>
        obtain ⟨q, hq, hcl⟩ := List.any_eq_true.mp hAny
        exact ⟨q, uniqAux_acc_mem tl acc q hq, hcl⟩
      · exact ⟨p, uniqAux_acc_mem tl (acc ++ [p]) p (List.mem_append_right _ (List.mem_singleton.mpr rfl)),
          epsClose_refl p⟩
    · unfold uniqAux
      split
      · exact ih acc p hp
      · exact ih (acc ++ [hd]) p hp

theorem scanLoop_of_top_lt {fuel : Nat} {y yTop s : ℚ} (h : ¬ y ≤ yTop) :
    scanLoop fuel y yTop s = [] := by
  cases fuel with
  | zero => rfl
  | succ n =>
    unfold scanLoop
    rw [if_neg h]

theorem mergeLoop_succ {fuel : Nat} {ps ps' : List (List Point)}
    (h : tryMergePass ps = some ps') : mergeLoop (fuel + 1) ps = mergeLoop fuel ps' := by
  conv_lhs => unfold mergeLoop
  rw [h]

/-- When some pass succeeds, `merge_convex` strictly shrinks the list. -/
theorem merge_convex_shrinks {ps ps' : List (List Point)}
    (h : tryMergePass ps = some ps') :
    (merge_convex ps).length < ps.length := by
  have hne : ps ≠ [] := by
    intro he
    subst he
    exact Option.noConfusion h
  unfold merge_convex
  rw [if_neg hne, show (100 : Nat) = 99 + 1 from rfl, mergeLoop_succ h]
  have h1 := mergeLoop_length_le 99 ps'
  have h2 := (tryMergePass_spec h).1
  omega

set_option maxHeartbeats 8000000 in
theorem mergeCap_result : merge_convex (manyTris 101) = afterCap := by
  decide

theorem afterCap_pass_isSome : (tryMergePass afterCap).isSome = true := by
  decide

/-!
## Claim theorems
-/

/-- Claim C2 counterexample: the claim quantifies over every input list of
polygons, but `merge_convex` returns a polygon list with a non-convex
member when fed a clockwise triangle, which it passes through unchanged
(no pair of polygons exists to merge). -/
theorem merge_convex_convexity_counterexample :
    (merge_convex [[⟨0,0⟩, ⟨0,1⟩, ⟨1,0⟩]]).all (fun p => isConvexCCW p) = false := by
  decide

/-- Claim C2 (amended): if every polygon of the input satisfies the
convexity invariant (every cyclically consecutive vertex triple has
strictly positive signed area), then so does every polygon returned by
`merge_convex`: unmerged polygons are returned as given, and every merged
polygon passed the `_area2 > 0` test of source lines 150-157. -/
theorem merge_convex_preserves_convexity (X : List (List Point))
    (h : ∀ p ∈ X, isConvexCCW p = true) :
    ∀ p ∈ merge_convex X, isConvexCCW p = true := by
  unfold merge_convex
  split
  · intro p hp
    exact absurd hp (List.not_mem_nil p)
  · exact mergeLoop_all_convex 100 X h

/-- Claim C2 witness: a single counter-clockwise triangle. -/
theorem merge_convex_preserves_convexity_witness :
    (∀ p ∈ [[(⟨0,0⟩ : Point), ⟨1,0⟩, ⟨0,1⟩]], isConvexCCW p = true) ∧
    (∀ p ∈ merge_convex [[(⟨0,0⟩ : Point), ⟨1,0⟩, ⟨0,1⟩]], isConvexCCW p = true) :=
  ⟨by decide, merge_convex_preserves_convexity _ (by decide)⟩

/-- Claim C3 counterexample: 101 disjoint mergeable square pairs need 101
merges, but each pass of `merge_convex` performs exactly one merge and the
pass cap stops the loop after 100, leaving one mergeable pair in the
result; a second call merges it, so the two sides differ (the first call
returns 102 polygons, the second 101). -/
theorem merge_convex_not_idempotent :
    merge_convex (merge_convex (manyTris 101)) ≠ merge_convex (manyTris 101) := by
  rw [mergeCap_result]
  intro heq
  have hsome := afterCap_pass_isSome
  rw [Option.isSome_iff_exists] at hsome
  obtain ⟨ps', hps'⟩ := hsome
  have hlt := merge_convex_shrinks hps'
  rw [heq] at hlt
  exact lt_irrefl _ hlt

/-- Claim C3 (amended): `merge_convex` is idempotent on every input whose
first merge finishes at a genuine fixed point, i.e. whenever a full pass
over `merge_convex X` finds no mergeable pair.  This holds automatically
when fewer than 100 merges are needed; when the 100-pass cap interrupts
the loop, a second call can merge further (see the counterexample). -/
theorem merge_convex_idempotent_of_fixed_point (X : List (List Point))
    (h : tryMergePass (merge_convex X) = none) :
    merge_convex (merge_convex X) = merge_convex X :=
  merge_convex_fixed h

/-- Claim C3 witness: the two triangles of one square merge into the
square, and the merged result is a fixed point. -/
theorem merge_convex_idempotent_witness :
    tryMergePass (merge_convex [triA 0, triB 0]) = none ∧
    merge_convex (merge_convex [triA 0, triB 0]) = merge_convex [triA 0, triB 0] :=
  ⟨by decide, merge_convex_idempotent_of_fixed_point _ (by decide)⟩

/-- Claim C4: `merge_convex` is total by construction (the pass cap is the
explicit fuel of `mergeLoop`), and when no pair of input polygons is
mergeable — a full pass returns no merge — it returns a list equal to its
input, same polygons in the same order. -/
theorem merge_convex_no_merge_identity (X : List (List Point))
    (h : tryMergePass X = none) :
    merge_convex X = X :=
  merge_convex_fixed h

/-- Claim C4 witness: two disjoint triangles share no vertex, so no pair is
mergeable and the input comes back unchanged. -/
theorem merge_convex_no_merge_identity_witness :
    tryMergePass [triA 0, triA 1] = none ∧
    merge_convex [triA 0, triA 1] = [triA 0, triA 1] :=
  ⟨by decide, merge_convex_no_merge_identity _ (by decide)⟩

/-- Claim C5: on the square `(0,0),(10,0),(10,10),(0,10)` with spacing 2,
`compute_lawnmower` returns exactly 4 stripes at `y = 2, 4, 6, 8` in
bottom-to-top order, each spanning `x ∈ [2, 8]` (length 6), and the
stitching loop of `generate_paths` connects them with alternating
direction and 3 transition segments, for 7 segments total. -/
theorem lawnmower_square_spacing_two :
    compute_lawnmower [⟨0,0⟩, ⟨10,0⟩, ⟨10,10⟩, ⟨0,10⟩] 2 =
      [⟨⟨2,2⟩,⟨8,2⟩⟩, ⟨⟨2,4⟩,⟨8,4⟩⟩, ⟨⟨2,6⟩,⟨8,6⟩⟩, ⟨⟨2,8⟩,⟨8,8⟩⟩] ∧
    buildPath (compute_lawnmower [⟨0,0⟩, ⟨10,0⟩, ⟨10,10⟩, ⟨0,10⟩] 2) =
      [⟨⟨2,2⟩,⟨8,2⟩⟩, ⟨⟨8,2⟩,⟨8,4⟩⟩, ⟨⟨8,4⟩,⟨2,4⟩⟩, ⟨⟨2,4⟩,⟨2,6⟩⟩,
       ⟨⟨2,6⟩,⟨8,6⟩⟩, ⟨⟨8,6⟩,⟨8,8⟩⟩, ⟨⟨8,8⟩,⟨2,8⟩⟩] := by
  constructor
  · decide
  · decide

/-- Claim C6 counterexample: the ear-exclusion comparison of `ear_clip`
(`p in (prev, curr, nxt)`, source line 58) uses `QPointF ==`, not the
`1e-6` tolerance: the points `(1e-7, 0)` and `(0, 0)` differ by less than
`1e-6` in both coordinates, yet the membership comparison rejects them,
so "the comparison holds iff both coordinates differ by less than 1e-6"
is false for that comparison site. -/
theorem point_equality_counterexample :
    epsClose ⟨mkRat 1 10000000, 0⟩ ⟨0, 0⟩ = true ∧
    earVertexMember ⟨mkRat 1 10000000, 0⟩ ⟨0, 0⟩ ⟨5, 0⟩ ⟨0, 5⟩ = false := by
  decide

/-- Claim C6 (amended): the merge-stage comparisons (shared-vertex
detection and `unique_points` deduplication) do compare points by the
`1e-6` tolerance on both coordinates — in particular every input point is
represented in `unique_points` output up to `epsClose` — but the
ear-vertex exclusion in `ear_clip`'s containment check (and the
`p not in shared` guard of `merge_convex`) instead uses `QPointF`'s Qt
fuzzy equality, which disagrees with the `1e-6` criterion. -/
theorem unique_points_eps_representative (p : Point) (ps : List Point)
    (h : p ∈ ps) :
    ∃ q ∈ unique_points ps, epsClose p q = true :=
  uniqAux_represented ps [] p h

/-- Claim C6 witness. -/
theorem unique_points_eps_representative_witness :
    (⟨0,0⟩ : Point) ∈ [(⟨0,0⟩ : Point), ⟨3,3⟩] ∧
    ∃ q ∈ unique_points [(⟨0,0⟩ : Point), ⟨3,3⟩], epsClose ⟨0,0⟩ q = true :=
  ⟨by decide, unique_points_eps_representative _ _ (by decide)⟩

/-- Claim C7: fewer than 3 vertices yield an empty triangle list, not an
error (source lines 21-22). -/
theorem ear_clip_insufficient_vertices (vs : List Point)
    (h : vs.length < 3) :
    ear_clip vs = [] := by
  unfold ear_clip
  rw [if_pos h]

/-- Claim C7 witness. -/
theorem ear_clip_insufficient_vertices_witness :
    [(⟨0,0⟩ : Point), ⟨1,1⟩].length < 3 ∧ ear_clip [(⟨0,0⟩ : Point), ⟨1,1⟩] = [] :=
  ⟨by decide, ear_clip_insufficient_vertices _ (by decide)⟩

/-- Claim C8: every pass of `merge_convex` removes two polygons and appends
one, so the output is never longer than the input. -/
theorem merge_convex_length_le (X : List (List Point)) :
    (merge_convex X).length ≤ X.length := by
  unfold merge_convex
  split
  · next he => rw [he]
  · exact mergeLoop_length_le 100 X

/-- Claim C9: when the vertical extent of the piece is below `2 * spacing`,
the very first scan height `y_min + spacing` already exceeds
`y_max - spacing`, so the scan loop emits nothing and the coverage path is
empty — not an error. -/
theorem lawnmower_empty_of_small_extent (poly : List Point) (s : ℚ)
    (_hs : 0 < s) (hext : yMaxOf poly - yMinOf poly < 2 * s) :
    compute_lawnmower poly s = [] := by
  have hlt : ¬ (qadd (yMinOf poly) s ≤ qsub (yMaxOf poly) s) := by
    rw [qadd_eq, qsub_eq]
    intro hle
    linarith
  simp only [compute_lawnmower]
  rw [scanLoop_of_top_lt hlt]
  rfl

/-- Claim C9 witness: vertical extent 3 with spacing 2. -/
theorem lawnmower_empty_of_small_extent_witness :
    (0 : ℚ) < 2 ∧
    yMaxOf [(⟨0,0⟩ : Point), ⟨4,0⟩, ⟨0,3⟩] - yMinOf [(⟨0,0⟩ : Point), ⟨4,0⟩, ⟨0,3⟩] < 2 * 2 ∧
    compute_lawnmower [(⟨0,0⟩ : Point), ⟨4,0⟩, ⟨0,3⟩] 2 = [] := by
  have hmax : yMaxOf [(⟨0,0⟩ : Point), ⟨4,0⟩, ⟨0,3⟩] = 3 := by decide
  have hmin : yMinOf [(⟨0,0⟩ : Point), ⟨4,0⟩, ⟨0,3⟩] = 0 := by decide
  have hext : yMaxOf [(⟨0,0⟩ : Point), ⟨4,0⟩, ⟨0,3⟩] -
      yMinOf [(⟨0,0⟩ : Point), ⟨4,0⟩, ⟨0,3⟩] < 2 * 2 := by
    rw [hmax, hmin]
    norm_num
  exact ⟨by norm_num, hext, lawnmower_empty_of_small_extent _ _ (by norm_num) hext⟩

/-- Claim C10: the half-open crossing test of `compute_lawnmower`
(source line 432) holds only when the edge endpoints differ in `y`, so the
interpolation divisor `b.y - a.y` (source line 433) is never zero:
horizontal edges are always skipped and the crossing computation is total. -/
theorem crossing_test_nonhorizontal (a b : Point) (y : ℚ)
    (h : crossesAt a b y = true) :
    a.y ≠ b.y ∧ qsub b.y a.y ≠ 0 := by
  unfold crossesAt at h
  simp only [Bool.or_eq_true, decide_eq_true_eq] at h
  have hne : a.y ≠ b.y := by
    rcases h with ⟨h1, h2⟩ | ⟨h1, h2⟩ <;> intro he <;> linarith [he]
  exact ⟨hne, by rw [qsub_eq]; exact sub_ne_zero.mpr (Ne.symm hne)⟩

/-- Claim C10 witness. -/
theorem crossing_test_nonhorizontal_witness :
    crossesAt ⟨0,0⟩ ⟨0,10⟩ (2 : ℚ) = true ∧
    ((⟨0,0⟩ : Point).y ≠ (⟨0,10⟩ : Point).y ∧ qsub (⟨0,10⟩ : Point).y (⟨0,0⟩ : Point).y ≠ 0) :=
  ⟨by decide, crossing_test_nonhorizontal ⟨0,0⟩ ⟨0,10⟩ (2 : ℚ) (by decide)⟩
